import Mathlib

/-!
Verification of the TT-matrix engine described by the design spec of the
`t3f` example repository.  The repository's `src/` holds only the example
notebook (glue code); every engine operation below is therefore modelled
from the spec's own description of the data model and algorithms, over
exact rational arithmetic (floating-point rounding becomes exact equality).
-/

namespace TTEngine

open Finset

/-- Modelled from the spec: a Core is a 4-way numeric array indexed by
(left-rank, row-factor, column-factor, right-rank).  `rl`, `n`, `m`, `rr`
record the extents of the four axes and `ent` the entries (values outside
the extents are irrelevant to every statement below). -/
structure Core where
  rl : ℕ
  n : ℕ
  m : ℕ
  rr : ℕ
  ent : ℕ → ℕ → ℕ → ℕ → ℚ

/-- Left rank of a core chain (1 for the empty chain, matching r_0 = 1). -/
def lrank : List Core → ℕ
  | [] => 1
  | c :: _ => c.rl

/-- Right rank of the last core of a chain (1 for the empty chain). -/
def rlast : List Core → ℕ
  | [] => 1
  | [c] => c.rr
  | _ :: c :: cs => rlast (c :: cs)

/-- Total row count represented by a chain: product of the row-factor sizes. -/
def rowsC : List Core → ℕ
  | [] => 1
  | c :: cs => c.n * rowsC cs

/-- Total column count represented by a chain: product of the column-factor
sizes. -/
def colsC : List Core → ℕ
  | [] => 1
  | c :: cs => c.m * colsC cs

/-- Modelled from the spec: rank-consistency of a chain — each core's
right-rank equals the next core's left-rank. -/
def chainConsistent : List Core → Prop
  | [] => True
  | [_] => True
  | c :: d :: cs => c.rr = d.rl ∧ chainConsistent (d :: cs)

/-- All factor sizes of the chain are positive. -/
def dimsPos (cores : List Core) : Prop :=
  ∀ c ∈ cores, 0 < c.n ∧ 0 < c.m

/-- Modelled from the spec: the rank sequence r_0, r_1, ..., r_d of a chain —
the left rank followed by every core's right-rank. -/
def rankSeq (cores : List Core) : List ℕ :=
  lrank cores :: cores.map Core.rr

/-- Modelled from the spec: the spec's well-formedness invariant for a
TT-Matrix core chain: rank-consistent, left rank 1, final right rank 1. -/
def wellFormed (cores : List Core) : Prop :=
  chainConsistent cores ∧ lrank cores = 1 ∧ rlast cores = 1

/-- Modelled from the spec: entry (i, j) of the implicit dense matrix of a
chain, as a function of the incoming left-rank index `a`: the chained
product of core slices contracted over all internal rank indices.  Row and
column multi-indices are decoded most-significant digit first. -/
def recon : List Core → ℕ → ℕ → ℕ → ℚ
  | [], a, _, _ => if a = 0 then 1 else 0
  | c :: cs, a, i, j =>
      ∑ b ∈ range c.rr,
        c.ent a (i / rowsC cs) (j / colsC cs) b * recon cs b (i % rowsC cs) (j % colsC cs)

/-- Modelled from the spec: error kinds of §7. -/
inductive Err where
  | ShapeMismatch
  | InvalidRank
  | InvalidTolerance
  | DimensionMismatch
  | DecompositionFailed
  deriving DecidableEq

/-- Modelled from the spec: `validate(row_factors, col_factors, rows, cols)`
fails with `ShapeMismatch` unless the factor lists have equal length, their
products match `rows` and `cols`, and every factor is a positive integer
(factors are modelled as naturals, positivity meaning nonzero). -/
def validate (rf cf : List ℕ) (rows cols : ℕ) : Except Err Unit :=
  if rf.length = cf.length ∧ rf.prod = rows ∧ cf.prod = cols ∧
      (∀ x ∈ rf, 0 < x) ∧ (∀ x ∈ cf, 0 < x) then
    Except.ok ()
  else
    Except.error Err.ShapeMismatch

/-- A mode factorization, as a list of (row factor, column factor) pairs. -/
abbrev Dims := List (ℕ × ℕ)

/-- Product of the combined mode sizes n_k * m_k. -/
def prodNM : Dims → ℕ
  | [] => 1
  | d :: rest => d.1 * d.2 * prodNM rest

/-- Product of the row factors. -/
def rowP : Dims → ℕ
  | [] => 1
  | d :: rest => d.1 * rowP rest

/-- Product of the column factors. -/
def colP : Dims → ℕ
  | [] => 1
  | d :: rest => d.2 * colP rest

/-- Positivity of all factors in a mode factorization. -/
abbrev posDims (dims : Dims) : Prop := ∀ d ∈ dims, 0 < d.1 ∧ 0 < d.2

/-- Modelled from the spec: `randomMatrix` builds the chain left to right;
core k gets the incoming left rank, and right rank equal to the requested
scalar rank clipped to the maximal rank allowed by the factor sizes
(1 at the last core).  `g` abstracts the random entry source (the sampled
values play no role in any structural claim), `t` indexes the core,
`acc` carries the product of the combined mode sizes processed so far. -/
def randomCoresAux (g : ℕ → ℕ → ℕ → ℕ → ℕ → ℚ) (rank : ℕ) :
    ℕ → ℕ → ℕ → Dims → List Core
  | _, _, _, [] => []
  | t, rl, acc, d :: rest =>
      let rr := if rest = [] then 1 else min rank (min (acc * (d.1 * d.2)) (prodNM rest))
      ⟨rl, d.1, d.2, rr, fun a i j b => g t a i j b⟩ ::
        randomCoresAux g rank (t + 1) rr (acc * (d.1 * d.2)) rest

/-- Modelled from the spec: the random constructor's chain. -/
def randomCores (g : ℕ → ℕ → ℕ → ℕ → ℕ → ℚ) (dims : Dims) (rank : ℕ) : List Core :=
  randomCoresAux g rank 0 1 1 dims

/-- Modelled from the spec: `varianceScaledMatrix` is `randomMatrix` with
every core entry multiplied by a calibration scale `s` (the spec's per-core
variance calibration; the scale's numeric value plays no role in any
structural claim). -/
def varianceScaledCores (g : ℕ → ℕ → ℕ → ℕ → ℕ → ℚ) (s : ℚ)
    (dims : Dims) (rank : ℕ) : List Core :=
  randomCores (fun t a i j b => s * g t a i j b) dims rank

/-- A dense matrix with explicit shape (entries outside the shape are
irrelevant to every statement below). -/
structure DMat where
  rows : ℕ
  cols : ℕ
  ent : ℕ → ℕ → ℚ

/-- Modelled from the spec: one step of the Contraction Engine (§4.4).
The running intermediate `T`, indexed by (batch, processed-row multi-index,
rank, remaining-column multi-index), is contracted against core `c` over
the incoming rank axis and the leading remaining column-factor axis.
`Mrem` is the flat size of the column modes still to process after `c`. -/
def contractStep (c : Core) (Mrem : ℕ) (T : ℕ → ℕ → ℕ → ℕ → ℚ) :
    ℕ → ℕ → ℕ → ℕ → ℚ :=
  fun b i a2 j2 =>
    ∑ a ∈ range c.rl, ∑ jk ∈ range c.m,
      T b (i / c.n) a (jk * Mrem + j2) * c.ent a (i % c.n) jk a2

/-- Modelled from the spec: the sequential core-by-core contraction loop. -/
def multAux : List Core → (ℕ → ℕ → ℕ → ℕ → ℚ) → (ℕ → ℕ → ℕ → ℕ → ℚ)
  | [], T => T
  | c :: cs, T => multAux cs (contractStep c (colsC cs) T)

/-- Modelled from the spec: `multiply(ttMatrix, denseBatch)` — the batch is
conceptually reshaped to expose the column modes, contracted sequentially
against each core, and the final intermediate (rank and column axes
exhausted, both index 0) is read off as the output batch. -/
def multiplyChain (cores : List Core) (X : ℕ → ℕ → ℚ) : ℕ → ℕ → ℚ :=
  fun b i =>
    multAux cores (fun b0 i0 a0 j0 => if i0 = 0 ∧ a0 = 0 then X b0 j0 else 0) b i 0 0

/-- Modelled from the spec and the notebook call site: `matmul(x, W)` with a
dense batch on the left contracts the batch's feature axis against the
TT-Matrix's row modes and fails with `DimensionMismatch` when the feature
length does not equal the product of the row factors. -/
def matmulDense (X : DMat) (cores : List Core) : Except Err DMat :=
  if X.cols = rowsC cores then
    Except.ok ⟨X.rows, colsC cores,
      fun b j => ∑ i ∈ range (rowsC cores), X.ent b i * recon cores 0 i j⟩
  else
    Except.error Err.DimensionMismatch

/-- Flat row multi-index of combined-mode flat index `L` (§4.5 step 2:
each combined mode ℓ_k = i_k * m_k + j_k, modes most significant first). -/
def rowIdx : Dims → ℕ → ℕ
  | [], _ => 0
  | d :: rest, L => (L / prodNM rest / d.2) * rowP rest + rowIdx rest (L % prodNM rest)

/-- Flat column multi-index of combined-mode flat index `L`. -/
def colIdx : Dims → ℕ → ℕ
  | [], _ => 0
  | d :: rest, L => (L / prodNM rest % d.2) * colP rest + colIdx rest (L % prodNM rest)

/-- Combined-mode flat index of the pair of flat row/column multi-indices
(the inverse reshape of `rowIdx`/`colIdx`). -/
def interleave : Dims → ℕ → ℕ → ℕ
  | [], _, _ => 0
  | d :: rest, i, j =>
      ((i / rowP rest) * d.2 + j / colP rest) * prodNM rest +
        interleave rest (i % rowP rest) (j % colP rest)

/-- Modelled from the spec (§4.5 step 2): the dense matrix reshaped into the
combined-mode tensor, kept as a function of a (left-rank, flat mode index)
pair with incoming left rank 1. -/
def tensOf (dims : Dims) (M : DMat) : ℕ → ℕ → ℚ :=
  fun _ L => M.ent (rowIdx dims L) (colIdx dims L)

/-- Modelled from the spec (§4.5 step 3): the unfolding of the current
residual — rows combine the incoming left rank with the current combined
mode, columns are the modes not yet processed (`P` = their flat size). -/
def unfoldStep (nm P : ℕ) (A : ℕ → ℕ → ℚ) : ℕ → ℕ → ℚ :=
  fun x L2 => A (x / nm) (x % nm * P + L2)

/-- A truncated-factorization oracle standing for the truncated SVD of one
decomposition step: given (rows, cols, rank, matrix) it returns the pair
(left factor, residual).  The SVD itself is irrational-valued and is
therefore modelled abstractly; the properties the claims rely on are stated
as hypotheses on the oracle. -/
abbrev FacOracle := ℕ → ℕ → ℕ → (ℕ → ℕ → ℚ) → ((ℕ → ℕ → ℚ) × (ℕ → ℕ → ℚ))

/-- Modelled from the spec (§4.5): the sequential unfold-and-truncate loop.
With a `maxRank` the truncation keeps exactly `k` singular directions
(zero-padding when fewer exist), so every internal right rank is `k`; the
final residual becomes the last core with right rank 1. -/
def decomposeCores (fac : FacOracle) (k : ℕ) :
    ℕ → Dims → (ℕ → ℕ → ℚ) → List Core
  | _, [], _ => []
  | r, [d], A => [⟨r, d.1, d.2, 1, fun a i j b => if b = 0 then A a (i * d.2 + j) else 0⟩]
  | r, d :: d2 :: rest, A =>
      let P := prodNM (d2 :: rest)
      let B := unfoldStep (d.1 * d.2) P A
      ⟨r, d.1, d.2, k, fun a i j b => (fac (r * (d.1 * d.2)) P k B).1 (a * (d.1 * d.2) + (i * d.2 + j)) b⟩ ::
        decomposeCores fac k k (d2 :: rest) (fac (r * (d.1 * d.2)) P k B).2

/-- Modelled from the spec: `decompose(denseMatrix, rowFactors, colFactors,
maxRank)` — reshape into the combined-mode tensor, then run the sequential
unfold-and-truncate loop starting from left rank 1. -/
def decompose (fac : FacOracle) (k : ℕ) (M : DMat) (dims : Dims) : List Core :=
  decomposeCores fac k 1 dims (tensOf dims M)

/-- The truncated factorization of one step is exact: the product of the
left factor and the residual reproduces the unfolding on its index range
(true of a rank-`k` truncated SVD exactly when `k` is at least the
unfolding's natural rank). -/
def ExactAt (fac : FacOracle) (r c k : ℕ) (A : ℕ → ℕ → ℚ) : Prop :=
  ∀ x < r, ∀ y < c,
    (∑ b ∈ range k, (fac r c k A).1 x b * (fac r c k A).2 b y) = A x y

/-- Every truncation step performed by `decomposeCores` on this input is
exact — the translation of "maxRank is at least every natural unfolding
rank" to the abstract oracle. -/
def DecompExact (fac : FacOracle) (k : ℕ) : ℕ → Dims → (ℕ → ℕ → ℚ) → Prop
  | _, [], _ => True
  | _, [_], _ => True
  | r, d :: d2 :: rest, A =>
      ExactAt fac (r * (d.1 * d.2)) (prodNM (d2 :: rest)) k
          (unfoldStep (d.1 * d.2) (prodNM (d2 :: rest)) A) ∧
        DecompExact fac k k (d2 :: rest)
          (fac (r * (d.1 * d.2)) (prodNM (d2 :: rest)) k
            (unfoldStep (d.1 * d.2) (prodNM (d2 :: rest)) A)).2

/-- Squared Frobenius norm of the difference between a chain's implicit
dense matrix and a dense matrix `M`. -/
def errSq (cores : List Core) (M : DMat) : ℚ :=
  ∑ i ∈ range M.rows, ∑ j ∈ range M.cols, (recon cores 0 i j - M.ent i j) ^ 2

/-- The internal right ranks chosen by the random constructor (clipped as in
§4.3), as a pure function of the requested rank and the factorization. -/
def clippedRanks (rank : ℕ) : ℕ → Dims → List ℕ
  | _, [] => []
  | acc, d :: rest =>
      (if rest = [] then 1 else min rank (min (acc * (d.1 * d.2)) (prodNM rest))) ::
        clippedRanks rank (acc * (d.1 * d.2)) rest

lemma chainConsistent_cons {c : Core} {cs : List Core}
    (h1 : chainConsistent cs) (h2 : c.rr = lrank cs) : chainConsistent (c :: cs) := by
  cases cs with
  | nil => trivial
  | cons c2 l => exact ⟨h2, h1⟩

lemma rlast_cons {c : Core} {cs : List Core} (h : cs ≠ []) :
    rlast (c :: cs) = rlast cs := by
  cases cs with
  | nil => exact absurd rfl h
  | cons c2 l => rfl

section RandomCores

variable (g : ℕ → ℕ → ℕ → ℕ → ℕ → ℚ) (rank : ℕ)

lemma randomCoresAux_map_rr :
    ∀ (dims : Dims) (t rl acc : ℕ),
      (randomCoresAux g rank t rl acc dims).map Core.rr = clippedRanks rank acc dims := by
  intro dims
  induction dims with
  | nil => intro t rl acc; rfl
  | cons d rest ih =>
      intro t rl acc
      simp only [randomCoresAux, clippedRanks, List.map_cons, List.cons.injEq]
      exact ⟨trivial, ih _ _ _⟩

lemma randomCoresAux_lrank :
    ∀ (dims : Dims) (t rl acc : ℕ), dims ≠ [] →
      lrank (randomCoresAux g rank t rl acc dims) = rl := by
  intro dims t rl acc h
  cases dims with
  | nil => exact absurd rfl h
  | cons d rest => rfl

lemma randomCoresAux_consistent :
    ∀ (dims : Dims) (t rl acc : ℕ), chainConsistent (randomCoresAux g rank t rl acc dims) := by
  intro dims
  induction dims with
  | nil => intro t rl acc; trivial
  | cons d rest ih =>
      intro t rl acc
      cases rest with
      | nil => trivial
      | cons d2 rest2 =>
          refine chainConsistent_cons (ih _ _ _) ?_
          rw [randomCoresAux_lrank g rank (d2 :: rest2) _ _ _ (by simp)]

lemma randomCoresAux_rlast :
    ∀ (dims : Dims) (t rl acc : ℕ), rlast (randomCoresAux g rank t rl acc dims) = 1 := by
  intro dims
  induction dims with
  | nil => intro t rl acc; rfl
  | cons d rest ih =>
      intro t rl acc
      cases rest with
      | nil => simp [randomCoresAux, rlast]
      | cons d2 rest2 =>
          rw [randomCoresAux, rlast_cons (by simp [randomCoresAux])]
          exact ih _ _ _

lemma randomCoresAux_rowsC :
    ∀ (dims : Dims) (t rl acc : ℕ),
      rowsC (randomCoresAux g rank t rl acc dims) = rowP dims := by
  intro dims
  induction dims with
  | nil => intro t rl acc; rfl
  | cons d rest ih =>
      intro t rl acc
      simp only [randomCoresAux, rowsC, rowP]
      rw [ih]

lemma randomCoresAux_colsC :
    ∀ (dims : Dims) (t rl acc : ℕ),
      colsC (randomCoresAux g rank t rl acc dims) = colP dims := by
  intro dims
  induction dims with
  | nil => intro t rl acc; rfl
  | cons d rest ih =>
      intro t rl acc
      simp only [randomCoresAux, colsC, colP]
      rw [ih]

lemma randomCores_wellFormed (dims : Dims) : wellFormed (randomCores g dims rank) := by
  refine ⟨randomCoresAux_consistent g rank dims 0 1 1, ?_, randomCoresAux_rlast g rank dims 0 1 1⟩
  cases dims with
  | nil => rfl
  | cons d rest => exact randomCoresAux_lrank g rank (d :: rest) 0 1 1 (by simp)

end RandomCores

section DecomposeCores

variable (fac : FacOracle) (k : ℕ)

lemma decomposeCores_lrank :
    ∀ (dims : Dims) (r : ℕ) (A : ℕ → ℕ → ℚ), dims ≠ [] →
      lrank (decomposeCores fac k r dims A) = r := by
  intro dims r A h
  match dims with
  | [] => exact absurd rfl h
  | [d] => rfl
  | d :: d2 :: rest => rfl

lemma decomposeCores_ne_nil :
    ∀ (dims : Dims) (r : ℕ) (A : ℕ → ℕ → ℚ), dims ≠ [] →
      decomposeCores fac k r dims A ≠ [] := by
  intro dims r A h
  match dims with
  | [] => exact absurd rfl h
  | [d] => simp [decomposeCores]
  | d :: d2 :: rest => simp [decomposeCores]

lemma decomposeCores_consistent :
    ∀ (dims : Dims) (r : ℕ) (A : ℕ → ℕ → ℚ),
      chainConsistent (decomposeCores fac k r dims A) := by
  intro dims
  induction dims with
  | nil => intro r A; trivial
  | cons d rest ih =>
      intro r A
      cases rest with
      | nil => trivial
      | cons d2 rest2 =>
          refine chainConsistent_cons (ih _ _) ?_
          rw [decomposeCores_lrank fac k (d2 :: rest2) _ _ (by simp)]

lemma decomposeCores_rlast :
    ∀ (dims : Dims) (r : ℕ) (A : ℕ → ℕ → ℚ),
      rlast (decomposeCores fac k r dims A) = 1 := by
  intro dims
  induction dims with
  | nil => intro r A; rfl
  | cons d rest ih =>
      intro r A
      cases rest with
      | nil => rfl
      | cons d2 rest2 =>
          rw [decomposeCores, rlast_cons (decomposeCores_ne_nil fac k (d2 :: rest2) _ _ (by simp))]
          exact ih _ _

lemma decomposeCores_wellFormed (dims : Dims) (A : ℕ → ℕ → ℚ) :
    wellFormed (decomposeCores fac k 1 dims A) := by
  refine ⟨decomposeCores_consistent fac k dims 1 A, ?_, decomposeCores_rlast fac k dims 1 A⟩
  cases dims with
  | nil => rfl
  | cons d rest => exact decomposeCores_lrank fac k (d :: rest) 1 A (by simp)

lemma decomposeCores_map_rr :
    ∀ (dims : Dims) (r : ℕ) (A : ℕ → ℕ → ℚ), dims ≠ [] →
      (decomposeCores fac k r dims A).map Core.rr =
        List.replicate (dims.length - 1) k ++ [1] := by
  intro dims
  induction dims with
  | nil => intro r A h; exact absurd rfl h
  | cons d rest ih =>
      intro r A _
      cases rest with
      | nil => rfl
      | cons d2 rest2 =>
          simp only [decomposeCores, List.map_cons]
          rw [ih _ _ (by simp)]
          simp [List.replicate_succ]

lemma decomposeCores_rowsC :
    ∀ (dims : Dims) (r : ℕ) (A : ℕ → ℕ → ℚ),
      rowsC (decomposeCores fac k r dims A) = rowP dims := by
  intro dims
  induction dims with
  | nil => intro r A; rfl
  | cons d rest ih =>
      intro r A
      cases rest with
      | nil => simp [decomposeCores, rowsC, rowP]
      | cons d2 rest2 =>
          simp only [decomposeCores, rowsC, rowP]
          rw [ih]
          rfl

lemma decomposeCores_colsC :
    ∀ (dims : Dims) (r : ℕ) (A : ℕ → ℕ → ℚ),
      colsC (decomposeCores fac k r dims A) = colP dims := by
  intro dims
  induction dims with
  | nil => intro r A; rfl
  | cons d rest ih =>
      intro r A
      cases rest with
      | nil => simp [decomposeCores, colsC, colP]
      | cons d2 rest2 =>
          simp only [decomposeCores, colsC, colP]
          rw [ih]
          rfl

end DecomposeCores

/-- C3: every TT-Matrix produced by the random constructor, the
variance-scaled constructor, or the TT-SVD decomposer satisfies the
rank-consistency invariant: adjacent left/right ranks agree across the
chain, the first left rank is 1 and the last right rank is 1 (so the rank
sequence begins and ends with 1). -/
theorem constructors_wellFormed :
    (∀ g dims rank, wellFormed (randomCores g dims rank)) ∧
    (∀ g s dims rank, wellFormed (varianceScaledCores g s dims rank)) ∧
    (∀ fac k dims A, wellFormed (decomposeCores fac k 1 dims A)) :=
  ⟨fun g dims rank => randomCores_wellFormed g rank dims,
   fun _g _s dims rank => randomCores_wellFormed _ rank dims,
   fun fac k dims A => decomposeCores_wellFormed fac k dims A⟩

/-- C7: `validate` fails with `ShapeMismatch` exactly when the factor lists
have different lengths, or a product disagrees with the requested matrix
dimension, or some factor is not positive; in particular it fails on row
factors [4,7] against column factors [5,5,5]. -/
theorem validate_shapeMismatch_iff :
    (∀ rf cf rows cols,
      validate rf cf rows cols = Except.error Err.ShapeMismatch ↔
        (rf.length ≠ cf.length ∨ rf.prod ≠ rows ∨ cf.prod ≠ cols ∨
          ∃ x ∈ rf ++ cf, ¬ 0 < x)) ∧
    validate [4, 7] [5, 5, 5] 28 125 = Except.error Err.ShapeMismatch := by
  constructor
  · intro rf cf rows cols
    unfold validate
    split
    · rename_i h
      constructor
      · intro hcon; exact absurd hcon (by simp)
      · rintro (hc | hc | hc | ⟨x, hx, hpos⟩)
        · exact absurd h.1 hc
        · exact absurd h.2.1 hc
        · exact absurd h.2.2.1 hc
        · rcases List.mem_append.1 hx with hx | hx
          · exact absurd (h.2.2.2.1 x hx) hpos
          · exact absurd (h.2.2.2.2 x hx) hpos
    · rename_i h
      constructor
      · intro _
        by_contra hcon
        push_neg at hcon
        obtain ⟨h1, h2, h3, h4⟩ := hcon
        refine h ⟨h1, h2, h3, ?_, ?_⟩
        · intro x hx
          exact h4 x (List.mem_append.2 (Or.inl hx))
        · intro x hx
          exact h4 x (List.mem_append.2 (Or.inr hx))
      · intro _; rfl
  · unfold validate
    rw [if_neg (by decide)]

/-- The notebook's decomposition factorization: row factors [7,4,7,4] and
column factors [5,5,5,5] paired mode by mode. -/
def nbDecompDims : Dims := [(7, 5), (4, 5), (7, 5), (4, 5)]

/-- The notebook's random/initializer factorization: row factors [4,7,4,7]
and column factors [5,5,5,5] paired mode by mode. -/
def nbRandDims : Dims := [(4, 5), (7, 5), (4, 5), (7, 5)]

/-- C8: the implicit dense matrix of any random TT-Matrix has shape exactly
(product of row factors, product of column factors); for the notebook's
factorization [4,7,4,7] / [5,5,5,5] with rank 2 this is a 784 by 625
reconstruction with rank sequence (1,2,2,2,1). -/
theorem randomMatrix_reconstruct_shape :
    (∀ g dims rank, rowsC (randomCores g dims rank) = rowP dims ∧
      colsC (randomCores g dims rank) = colP dims) ∧
    (∀ g, rankSeq (randomCores g nbRandDims 2) = [1, 2, 2, 2, 1]) ∧
    rowP nbRandDims = 784 ∧ colP nbRandDims = 625 := by
  refine ⟨fun g dims rank => ⟨randomCoresAux_rowsC g rank dims 0 1 1,
    randomCoresAux_colsC g rank dims 0 1 1⟩, ?_, by decide, by decide⟩
  intro g
  have h1 : lrank (randomCores g nbRandDims 2) = 1 :=
    randomCoresAux_lrank g 2 nbRandDims 0 1 1 (by decide)
  unfold rankSeq
  rw [h1]
  unfold randomCores
  rw [randomCoresAux_map_rr]
  decide

/-- C10: at the interface the notebook exercises, the dense batch is the
left operand: `matmul(x, W)` requires the batch feature length to equal the
product of the row factors and returns a batch whose feature length is the
product of the column factors (784 in, 625 out for the notebook's
TT-Matrix), failing with `DimensionMismatch` otherwise. -/
theorem matmul_orientation :
    (∀ (X : DMat) (cores : List Core), X.cols = rowsC cores →
      (matmulDense X cores).toOption.map DMat.rows = some X.rows ∧
      (matmulDense X cores).toOption.map DMat.cols = some (colsC cores)) ∧
    (∀ (X : DMat) (cores : List Core), X.cols ≠ rowsC cores →
      matmulDense X cores = Except.error Err.DimensionMismatch) ∧
    (∀ g rank, rowsC (randomCores g nbRandDims rank) = 784 ∧
      colsC (randomCores g nbRandDims rank) = 625) := by
  refine ⟨?_, ?_, ?_⟩
  · intro X cores h
    unfold matmulDense
    rw [if_pos h]
    exact ⟨rfl, rfl⟩
  · intro X cores h
    unfold matmulDense
    rw [if_neg h]
  · intro g rank
    rw [randomCores, randomCoresAux_rowsC, randomCoresAux_colsC]
    exact ⟨by decide, by decide⟩

/-- A dense batch used only to witness `matmul_orientation`. -/
def witnessBatchOk : DMat := ⟨3, 1, fun _ _ => 1⟩

/-- A mismatched dense batch used only to witness `matmul_orientation`. -/
def witnessBatchBad : DMat := ⟨3, 2, fun _ _ => 1⟩

/-- Witness for C10 at concrete inputs: a 3 by 1 batch against the empty
chain succeeds with the stated shape, a 3 by 2 batch fails. -/
theorem matmul_orientation_witness :
    ((matmulDense witnessBatchOk []).toOption.map DMat.rows = some 3 ∧
      (matmulDense witnessBatchOk []).toOption.map DMat.cols = some 1) ∧
    matmulDense witnessBatchBad [] = Except.error Err.DimensionMismatch :=
  ⟨matmul_orientation.1 witnessBatchOk [] rfl,
   matmul_orientation.2.1 witnessBatchBad [] (by decide)⟩

/-- C5: decomposition with a `maxRank` always truncates every internal link
to exactly `maxRank` (zero-padding when fewer singular directions exist),
so the rank sequence is 1, maxRank, ..., maxRank, 1 for every input matrix,
regardless of the unfoldings' natural rank bounds. -/
theorem decompose_rank_sequence :
    ∀ (fac : FacOracle) (k : ℕ) (M : DMat) (dims : Dims), dims ≠ [] →
      rankSeq (decompose fac k M dims) =
        1 :: (List.replicate (dims.length - 1) k ++ [1]) := by
  intro fac k M dims h
  unfold decompose rankSeq
  rw [decomposeCores_lrank fac k dims 1 _ h, decomposeCores_map_rr fac k dims 1 _ h]

/-- An oracle used only to witness `decompose_rank_sequence`. -/
def witnessFac : FacOracle := fun _ _ _ A => (A, A)

/-- Witness for C5 at a concrete input: a two-mode decomposition at
maxRank 3 has rank sequence (1, 3, 1). -/
theorem decompose_rank_sequence_witness :
    rankSeq (decompose witnessFac 3 ⟨1, 1, fun _ _ => 0⟩ [(1, 1), (1, 1)]) =
      1 :: (List.replicate 1 3 ++ [1]) :=
  decompose_rank_sequence witnessFac 3 ⟨1, 1, fun _ _ => 0⟩ [(1, 1), (1, 1)] (by decide)

/-- The oracle returning zero factors: on a zero unfolding this is a valid
truncated SVD outcome (all singular values vanish, so the retained
singular-value/right-factor product is the zero residual). -/
def zeroFac : FacOracle := fun _ _ _ _ => (fun _ _ => 0, fun _ _ => 0)

/-- The 784 by 625 zero matrix. -/
def zeroM : DMat := ⟨784, 625, fun _ _ => 0⟩

lemma recon_decomposeCores_zeroFac :
    ∀ (dims : Dims) (k r : ℕ) (A : ℕ → ℕ → ℚ), dims ≠ [] → (∀ a L, A a L = 0) →
      ∀ a i j, recon (decomposeCores zeroFac k r dims A) a i j = 0 := by
  intro dims k r A hne hA a i j
  match dims with
  | [] => exact absurd rfl hne
  | [d] =>
      simp only [decomposeCores, recon, range_one, sum_singleton]
      simp [hA]
  | d :: d2 :: rest =>
      simp only [decomposeCores, recon]
      refine Finset.sum_eq_zero fun b _ => ?_
      show (0 : ℚ) * _ = 0
      rw [zero_mul]

lemma decompExact_zeroFac :
    ∀ (dims : Dims) (k r : ℕ) (A : ℕ → ℕ → ℚ), (∀ a L, A a L = 0) →
      DecompExact zeroFac k r dims A := by
  intro dims
  induction dims with
  | nil => intro k r A _; trivial
  | cons d rest ih =>
      intro k r A hA
      cases rest with
      | nil => trivial
      | cons d2 rest2 =>
          refine ⟨?_, ih k k _ fun a L => rfl⟩
          intro x _ y _
          show (∑ b ∈ range k, (0 : ℚ) * 0) = unfoldStep (d.1 * d.2) (prodNM (d2 :: rest2)) A x y
          rw [unfoldStep, hA]
          simp

lemma errSq_decompose_zeroM (k : ℕ) :
    errSq (decompose zeroFac k zeroM nbDecompDims) zeroM = 0 := by
  unfold errSq
  refine Finset.sum_eq_zero fun i _ => Finset.sum_eq_zero fun j _ => ?_
  rw [decompose, recon_decomposeCores_zeroFac nbDecompDims k 1 (tensOf nbDecompDims zeroM)
    (by decide) fun a L => rfl]
  show ((0 : ℚ) - 0) ^ 2 = 0
  simp

/-- Counterexample to C6 as stated: for the 784 by 625 zero matrix the
truncated SVD steps are exact at both maxRank 16 and maxRank 2 (all
singular values vanish, the zero factors are a valid outcome), and both
reconstruction errors are 0, so the error at maxRank 16 is not strictly
smaller than at maxRank 2. -/
theorem decompose_784_error_not_strict :
    DecompExact zeroFac 16 1 nbDecompDims (tensOf nbDecompDims zeroM) ∧
    DecompExact zeroFac 2 1 nbDecompDims (tensOf nbDecompDims zeroM) ∧
    errSq (decompose zeroFac 16 zeroM nbDecompDims) zeroM = 0 ∧
    errSq (decompose zeroFac 2 zeroM nbDecompDims) zeroM = 0 ∧
    ¬ (errSq (decompose zeroFac 16 zeroM nbDecompDims) zeroM <
        errSq (decompose zeroFac 2 zeroM nbDecompDims) zeroM) := by
  have he16 := errSq_decompose_zeroM 16
  have he2 := errSq_decompose_zeroM 2
  refine ⟨decompExact_zeroFac nbDecompDims 16 1 _ fun a L => rfl,
    decompExact_zeroFac nbDecompDims 2 1 _ fun a L => rfl, he16, he2, ?_⟩
  rw [he16, he2]
  exact lt_irrefl 0

/-- C6 (amended): decomposing any 784 by 625 dense matrix with row factors
[7,4,7,4], column factors [5,5,5,5] and maxRank 16 yields a TT-Matrix with
rank sequence (1,16,16,16,1); the reconstruction-error comparison against
maxRank 2 holds only non-strictly (the zero matrix gives equal errors). -/
theorem decompose_784_rank_sequence :
    ∀ (fac : FacOracle) (M : DMat),
      rankSeq (decompose fac 16 M nbDecompDims) = [1, 16, 16, 16, 1] := by
  intro fac M
  rw [decompose, rankSeq,
    decomposeCores_lrank fac 16 nbDecompDims 1 _ (by decide),
    decomposeCores_map_rr fac 16 nbDecompDims 1 _ (by decide)]
  decide

lemma sum_range_mul_split (f : ℕ → ℚ) (m p : ℕ) :
    ∑ j ∈ range (m * p), f j = ∑ a ∈ range m, ∑ b ∈ range p, f (a * p + b) := by
  induction m with
  | zero => simp
  | succ m ih =>
      rw [Nat.succ_mul, Finset.sum_range_add, ih, Finset.sum_range_succ]

lemma sum_swap4 {K C R M : ℕ} (F : ℕ → ℕ → ℕ → ℕ → ℚ) :
    (∑ w ∈ range K, ∑ x ∈ range C, ∑ y ∈ range R, ∑ z ∈ range M, F w x y z) =
      ∑ y ∈ range R, ∑ z ∈ range M, ∑ x ∈ range C, ∑ w ∈ range K, F w x y z :=
  calc
    (∑ w ∈ range K, ∑ x ∈ range C, ∑ y ∈ range R, ∑ z ∈ range M, F w x y z)
        = ∑ w ∈ range K, ∑ y ∈ range R, ∑ x ∈ range C, ∑ z ∈ range M, F w x y z :=
          Finset.sum_congr rfl fun _w _ => Finset.sum_comm
    _ = ∑ y ∈ range R, ∑ w ∈ range K, ∑ x ∈ range C, ∑ z ∈ range M, F w x y z :=
          Finset.sum_comm
    _ = ∑ y ∈ range R, ∑ w ∈ range K, ∑ z ∈ range M, ∑ x ∈ range C, F w x y z :=
          Finset.sum_congr rfl fun _y _ => Finset.sum_congr rfl fun _w _ => Finset.sum_comm
    _ = ∑ y ∈ range R, ∑ z ∈ range M, ∑ w ∈ range K, ∑ x ∈ range C, F w x y z :=
          Finset.sum_congr rfl fun _y _ => Finset.sum_comm
    _ = ∑ y ∈ range R, ∑ z ∈ range M, ∑ x ∈ range C, ∑ w ∈ range K, F w x y z :=
          Finset.sum_congr rfl fun _y _ => Finset.sum_congr rfl fun _z _ => Finset.sum_comm

lemma lrank_cons (c : Core) (cs : List Core) : lrank (c :: cs) = c.rl := rfl

lemma chainConsistent_tail {c : Core} {cs : List Core}
    (h : chainConsistent (c :: cs)) : chainConsistent cs := by
  cases cs with
  | nil => trivial
  | cons c2 l => exact h.2

lemma consistent_head_rr {c : Core} {cs : List Core}
    (h : chainConsistent (c :: cs)) (hl : rlast (c :: cs) = 1) : c.rr = lrank cs := by
  cases cs with
  | nil => exact hl
  | cons c2 l => exact h.1

lemma colsC_pos {cores : List Core} (h : ∀ c ∈ cores, 0 < c.m) : 0 < colsC cores := by
  induction cores with
  | nil => exact Nat.one_pos
  | cons c cs ih =>
      exact Nat.mul_pos (h c (List.mem_cons_self c cs))
        (ih fun x hx => h x (List.mem_cons_of_mem c hx))

lemma multAux_spec :
    ∀ (cores : List Core), chainConsistent cores → rlast cores = 1 →
      (∀ c ∈ cores, 0 < c.m) →
      ∀ (T : ℕ → ℕ → ℕ → ℕ → ℚ) (b I : ℕ),
        multAux cores T b I 0 0 =
          ∑ a ∈ range (lrank cores), ∑ j ∈ range (colsC cores),
            T b (I / rowsC cores) a j * recon cores a (I % rowsC cores) j := by
  intro cores
  induction cores with
  | nil =>
      intro _ _ _ T b I
      simp [multAux, lrank, colsC, rowsC, recon]
  | cons c cs ih =>
      intro hcons hlast hpos T b I
      have hcons2 : chainConsistent cs := chainConsistent_tail hcons
      have hlast2 : rlast cs = 1 := by
        cases cs with
        | nil => rfl
        | cons c2 l => rw [← rlast_cons (c := c) (by simp)]; exact hlast
      have hposc : ∀ x ∈ cs, 0 < x.m := fun x hx => hpos x (List.mem_cons_of_mem c hx)
      have hrr : c.rr = lrank cs := consistent_head_rr hcons hlast
      have hC : 0 < colsC cs := colsC_pos hposc
      have hd1 : I / (c.n * rowsC cs) = I / rowsC cs / c.n := by
        rw [mul_comm]
        exact (Nat.div_div_eq_div_mul I (rowsC cs) c.n).symm
      have hd2 : I % (c.n * rowsC cs) / rowsC cs = I / rowsC cs % c.n := by
        rw [mul_comm]
        exact Nat.mod_mul_right_div_self I (rowsC cs) c.n
      have hd3 : I % (c.n * rowsC cs) % rowsC cs = I % rowsC cs :=
        Nat.mod_mod_of_dvd I (dvd_mul_left (rowsC cs) c.n)
      have hjdiv : ∀ jk j2, j2 < colsC cs → (jk * colsC cs + j2) / colsC cs = jk := by
        intro jk j2 h
        rw [mul_comm, Nat.mul_add_div hC, Nat.div_eq_of_lt h, add_zero]
      have hjmod : ∀ jk j2, j2 < colsC cs → (jk * colsC cs + j2) % colsC cs = j2 := by
        intro jk j2 h
        rw [mul_comm, Nat.mul_add_mod, Nat.mod_eq_of_lt h]
      show multAux cs (contractStep c (colsC cs) T) b I 0 0 = _
      rw [ih hcons2 hlast2 hposc (contractStep c (colsC cs) T) b I]
      simp only [lrank_cons, colsC, rowsC, recon, contractStep]
      rw [hd1, hd2, hd3]
      simp only [sum_range_mul_split]
      have hclean :
          (∑ a ∈ range c.rl, ∑ jk ∈ range c.m, ∑ j2 ∈ range (colsC cs),
            T b (I / rowsC cs / c.n) a (jk * colsC cs + j2) *
              ∑ b2 ∈ range c.rr,
                c.ent a (I / rowsC cs % c.n) ((jk * colsC cs + j2) / colsC cs) b2 *
                  recon cs b2 (I % rowsC cs) ((jk * colsC cs + j2) % colsC cs)) =
          ∑ a ∈ range c.rl, ∑ jk ∈ range c.m, ∑ j2 ∈ range (colsC cs),
            T b (I / rowsC cs / c.n) a (jk * colsC cs + j2) *
              ∑ b2 ∈ range c.rr,
                c.ent a (I / rowsC cs % c.n) jk b2 * recon cs b2 (I % rowsC cs) j2 := by
        refine Finset.sum_congr rfl fun a _ => Finset.sum_congr rfl fun jk _ =>
          Finset.sum_congr rfl fun j2 hj2 => ?_
        rw [hjdiv jk j2 (Finset.mem_range.1 hj2), hjmod jk j2 (Finset.mem_range.1 hj2)]
      rw [hclean, hrr]
      simp only [Finset.sum_mul, Finset.mul_sum, mul_assoc]
      exact sum_swap4 fun a2 j2 a jk =>
        T b (I / rowsC cs / c.n) a (jk * colsC cs + j2) *
          (c.ent a (I / rowsC cs % c.n) jk a2 * recon cs a2 (I % rowsC cs) j2)

/-- C1: the Contraction Engine's sequential core-by-core contraction agrees
with the naive dense product: for a well-formed chain with positive column
factors and any dense batch, row `b`, output coordinate `i` inside the
implicit row count, `multiply(W, X)` equals `X @ reconstruct(W)^T`
(exactly, in exact rational arithmetic). -/
theorem multiply_refines_dense :
    ∀ (cores : List Core) (X : ℕ → ℕ → ℚ) (b i : ℕ),
      chainConsistent cores → lrank cores = 1 → rlast cores = 1 →
      (∀ c ∈ cores, 0 < c.m) → i < rowsC cores →
      multiplyChain cores X b i =
        ∑ j ∈ range (colsC cores), X b j * recon cores 0 i j := by
  intro cores X b i hc hl hr hm hi
  unfold multiplyChain
  rw [multAux_spec cores hc hr hm _ b i, Nat.div_eq_of_lt hi, Nat.mod_eq_of_lt hi, hl,
    Finset.sum_range_one]
  refine Finset.sum_congr rfl fun j _ => ?_
  simp

/-- A concrete two-core chain (ranks 1, 2, 1; factors (2,3) and (2,2)) used
only to witness `multiply_refines_dense`. -/
def witnessCoreA : Core := ⟨1, 2, 3, 2, fun a i j b => ((1 + a + 2 * i + 3 * j + 5 * b : ℕ) : ℚ)⟩

/-- Second core of the witness chain for `multiply_refines_dense`. -/
def witnessCoreB : Core := ⟨2, 2, 2, 1, fun a i j b => ((2 + 3 * a + i + 4 * j + b : ℕ) : ℚ)⟩

/-- A concrete dense batch used only to witness `multiply_refines_dense`. -/
def witnessBatchX : ℕ → ℕ → ℚ := fun b j => ((b + j * j + 1 : ℕ) : ℚ)

/-- Witness for C1 at a concrete chain and batch. -/
theorem multiply_refines_dense_witness :
    multiplyChain [witnessCoreA, witnessCoreB] witnessBatchX 0 1 =
      ∑ j ∈ range (colsC [witnessCoreA, witnessCoreB]),
        witnessBatchX 0 j * recon [witnessCoreA, witnessCoreB] 0 1 j :=
  multiply_refines_dense [witnessCoreA, witnessCoreB] witnessBatchX 0 1
    ⟨rfl, trivial⟩ rfl rfl (by decide) (by decide)

lemma mul_add_div_self (p a b : ℕ) (hp : 0 < p) (hb : b < p) : (a * p + b) / p = a := by
  rw [mul_comm, Nat.mul_add_div hp, Nat.div_eq_of_lt hb, add_zero]

lemma mul_add_mod_self (p a b : ℕ) (hb : b < p) : (a * p + b) % p = b := by
  rw [mul_comm, Nat.mul_add_mod, Nat.mod_eq_of_lt hb]

lemma mul_add_bound {a r l nm : ℕ} (ha : a < r) (hl : l < nm) : a * nm + l < r * nm :=
  calc a * nm + l < (a + 1) * nm := by rw [add_mul, one_mul]; omega
    _ ≤ r * nm := Nat.mul_le_mul_right nm ha

lemma prodNM_pos {dims : Dims} (h : posDims dims) : 0 < prodNM dims := by
  induction dims with
  | nil => exact Nat.one_pos
  | cons d rest ih =>
      have hd := h d (List.mem_cons_self d rest)
      exact Nat.mul_pos (Nat.mul_pos hd.1 hd.2)
        (ih fun x hx => h x (List.mem_cons_of_mem d hx))

lemma rowP_pos {dims : Dims} (h : posDims dims) : 0 < rowP dims := by
  induction dims with
  | nil => exact Nat.one_pos
  | cons d rest ih =>
      exact Nat.mul_pos (h d (List.mem_cons_self d rest)).1
        (ih fun x hx => h x (List.mem_cons_of_mem d hx))

lemma colP_pos {dims : Dims} (h : posDims dims) : 0 < colP dims := by
  induction dims with
  | nil => exact Nat.one_pos
  | cons d rest ih =>
      exact Nat.mul_pos (h d (List.mem_cons_self d rest)).2
        (ih fun x hx => h x (List.mem_cons_of_mem d hx))

lemma posDims_tail {d : ℕ × ℕ} {rest : Dims} (h : posDims (d :: rest)) : posDims rest :=
  fun x hx => h x (List.mem_cons_of_mem d hx)

lemma interleave_lt :
    ∀ (dims : Dims), posDims dims → ∀ i j, i < rowP dims → j < colP dims →
      interleave dims i j < prodNM dims := by
  intro dims
  induction dims with
  | nil => intro _ i j _ _; exact Nat.one_pos
  | cons d rest ih =>
      intro hpos i j hi hj
      have hpr : posDims rest := posDims_tail hpos
      have hd := hpos d (List.mem_cons_self d rest)
      have hR : 0 < rowP rest := rowP_pos hpr
      have hCp : 0 < colP rest := colP_pos hpr
      have hi1 : i / rowP rest < d.1 := (Nat.div_lt_iff_lt_mul hR).2 hi
      have hj1 : j / colP rest < d.2 := (Nat.div_lt_iff_lt_mul hCp).2 hj
      have hl : i / rowP rest * d.2 + j / colP rest < d.1 * d.2 := mul_add_bound hi1 hj1
      have ht : interleave rest (i % rowP rest) (j % colP rest) < prodNM rest :=
        ih hpr _ _ (Nat.mod_lt i hR) (Nat.mod_lt j hCp)
      exact mul_add_bound hl ht

lemma rowIdx_colIdx_interleave :
    ∀ (dims : Dims), posDims dims → ∀ i j, i < rowP dims → j < colP dims →
      rowIdx dims (interleave dims i j) = i ∧ colIdx dims (interleave dims i j) = j := by
  intro dims
  induction dims with
  | nil =>
      intro _ i j hi hj
      have : i = 0 := Nat.lt_one_iff.1 hi
      have : j = 0 := Nat.lt_one_iff.1 hj
      subst_vars
      exact ⟨rfl, rfl⟩
  | cons d rest ih =>
      intro hpos i j hi hj
      have hpr : posDims rest := posDims_tail hpos
      have hd := hpos d (List.mem_cons_self d rest)
      have hR : 0 < rowP rest := rowP_pos hpr
      have hCp : 0 < colP rest := colP_pos hpr
      have hP : 0 < prodNM rest := prodNM_pos hpr
      have hj1 : j / colP rest < d.2 := (Nat.div_lt_iff_lt_mul hCp).2 hj
      have ht : interleave rest (i % rowP rest) (j % colP rest) < prodNM rest :=
        interleave_lt rest hpr _ _ (Nat.mod_lt i hR) (Nat.mod_lt j hCp)
      have ihr := ih hpr (i % rowP rest) (j % colP rest) (Nat.mod_lt i hR) (Nat.mod_lt j hCp)
      simp only [interleave, rowIdx, colIdx]
      rw [mul_add_div_self (prodNM rest) _ _ hP ht, mul_add_mod_self (prodNM rest) _ _ ht,
        mul_add_div_self d.2 _ _ hd.2 hj1, mul_add_mod_self d.2 _ _ hj1, ihr.1, ihr.2]
      constructor
      · rw [mul_comm]
        exact Nat.div_add_mod i (rowP rest)
      · rw [mul_comm]
        exact Nat.div_add_mod j (colP rest)

lemma recon_decomposeCores_exact (fac : FacOracle) (k : ℕ) :
    ∀ (dims : Dims) (r : ℕ) (A : ℕ → ℕ → ℚ), dims ≠ [] → posDims dims →
      DecompExact fac k r dims A →
      ∀ a, a < r → ∀ i, i < rowP dims → ∀ j, j < colP dims →
        recon (decomposeCores fac k r dims A) a i j = A a (interleave dims i j) := by
  intro dims
  induction dims with
  | nil => intro r A hne; exact absurd rfl hne
  | cons d rest ih =>
      intro r A _ hpos hex a ha i hi j hj
      cases rest with
      | nil =>
          simp only [decomposeCores, recon, rowsC, colsC, interleave, rowP, colP, prodNM,
            range_one, sum_singleton, Nat.div_one, Nat.mod_one]
          simp
      | cons d2 rest2 =>
          have hpr : posDims (d2 :: rest2) := posDims_tail hpos
          have hd := hpos d (List.mem_cons_self d (d2 :: rest2))
          have hR : 0 < rowP (d2 :: rest2) := rowP_pos hpr
          have hCp : 0 < colP (d2 :: rest2) := colP_pos hpr
          have hnm : 0 < d.1 * d.2 := Nat.mul_pos hd.1 hd.2
          have hi1 : i / rowP (d2 :: rest2) < d.1 := (Nat.div_lt_iff_lt_mul hR).2 hi
          have hj1 : j / colP (d2 :: rest2) < d.2 := (Nat.div_lt_iff_lt_mul hCp).2 hj
          have hl : i / rowP (d2 :: rest2) * d.2 + j / colP (d2 :: rest2) < d.1 * d.2 :=
            mul_add_bound hi1 hj1
          have hy : interleave (d2 :: rest2) (i % rowP (d2 :: rest2)) (j % colP (d2 :: rest2)) <
              prodNM (d2 :: rest2) :=
            interleave_lt (d2 :: rest2) hpr _ _ (Nat.mod_lt i hR) (Nat.mod_lt j hCp)
          simp only [decomposeCores, recon, interleave]
          rw [decomposeCores_rowsC fac k (d2 :: rest2), decomposeCores_colsC fac k (d2 :: rest2)]
          have hstep :
              ∀ b ∈ range k,
                (fac (r * (d.1 * d.2)) (prodNM (d2 :: rest2)) k
                    (unfoldStep (d.1 * d.2) (prodNM (d2 :: rest2)) A)).1
                  (a * (d.1 * d.2) +
                    (i / rowP (d2 :: rest2) * d.2 + j / colP (d2 :: rest2))) b *
                recon (decomposeCores fac k k (d2 :: rest2)
                    (fac (r * (d.1 * d.2)) (prodNM (d2 :: rest2)) k
                      (unfoldStep (d.1 * d.2) (prodNM (d2 :: rest2)) A)).2)
                  b (i % rowP (d2 :: rest2)) (j % colP (d2 :: rest2)) =
                (fac (r * (d.1 * d.2)) (prodNM (d2 :: rest2)) k
                    (unfoldStep (d.1 * d.2) (prodNM (d2 :: rest2)) A)).1
                  (a * (d.1 * d.2) +
                    (i / rowP (d2 :: rest2) * d.2 + j / colP (d2 :: rest2))) b *
                (fac (r * (d.1 * d.2)) (prodNM (d2 :: rest2)) k
                    (unfoldStep (d.1 * d.2) (prodNM (d2 :: rest2)) A)).2
                  b (interleave (d2 :: rest2) (i % rowP (d2 :: rest2))
                    (j % colP (d2 :: rest2))) := by
            intro b hb
            rw [ih k _ (by simp) hpr hex.2 b (Finset.mem_range.1 hb) _
              (Nat.mod_lt i hR) _ (Nat.mod_lt j hCp)]
          rw [Finset.sum_congr rfl hstep]
          rw [hex.1 _ (mul_add_bound ha hl) _ hy]
          rw [unfoldStep]
          rw [mul_add_div_self (d.1 * d.2) _ _ hnm hl, mul_add_mod_self (d.1 * d.2) _ _ hl]
          simp only [interleave]

/-- C2: for every dense matrix and valid positive mode factorization, when
the maxRank is non-restrictive — modelled as every truncated SVD step
factoring its unfolding exactly, which is what a rank-`k` truncated SVD
does whenever `k` is at least the unfolding's natural rank — the
decomposition reconstructs the original matrix exactly. -/
theorem decompose_roundtrip_full_rank :
    ∀ (fac : FacOracle) (k : ℕ) (M : DMat) (dims : Dims), dims ≠ [] → posDims dims →
      DecompExact fac k 1 dims (tensOf dims M) →
      ∀ i, i < rowP dims → ∀ j, j < colP dims →
        recon (decompose fac k M dims) 0 i j = M.ent i j := by
  intro fac k M dims hne hpos hex i hi j hj
  rw [decompose, recon_decomposeCores_exact fac k dims 1 (tensOf dims M) hne hpos hex 0
    Nat.one_pos i hi j hj]
  show M.ent (rowIdx dims (interleave dims i j)) (colIdx dims (interleave dims i j)) = M.ent i j
  rw [(rowIdx_colIdx_interleave dims hpos i j hi hj).1,
    (rowIdx_colIdx_interleave dims hpos i j hi hj).2]

/-- The 1 by 1 dense matrix with entry 3, used only to witness
`decompose_roundtrip_full_rank`. -/
def witnessM3 : DMat := ⟨1, 1, fun _ _ => 3⟩

/-- An oracle that is exact on every one-column unfolding, used only to
witness `decompose_roundtrip_full_rank`. -/
def witnessExactFac : FacOracle := fun _ _ _ A => (A, fun b y => if b = y then 1 else 0)

/-- Witness for C2 at a concrete input: the decomposition of the 1 by 1
matrix (3) over mode factors [(1,1),(1,1)] at maxRank 1 reconstructs its
entry. -/
theorem decompose_roundtrip_full_rank_witness :
    recon (decompose witnessExactFac 1 witnessM3 [(1, 1), (1, 1)]) 0 0 0 = witnessM3.ent 0 0 :=
  decompose_roundtrip_full_rank witnessExactFac 1 witnessM3 [(1, 1), (1, 1)]
    (by decide) (by decide)
    ⟨by
      intro x hx y hy
      have hx0 : x = 0 := Nat.lt_one_iff.1 hx
      have hy0 : y = 0 := Nat.lt_one_iff.1 hy
      subst hx0
      subst hy0
      simp [witnessExactFac, Finset.sum_range_one], trivial⟩
    0 (by decide) 0 (by decide)

end TTEngine
